import Mathlib

/-!
# A shallow embedding of `littleworkers.py` (`Pool`)

`littleworkers` is a bounded-concurrency shell-command runner.  The whole
program is one class, `Pool`, whose `run` method drives a polling loop:
admit a command when under capacity, poll every in-flight process, reap the
finished ones (invoking the completion callback and advancing the progress
bar), and stop once the queue and the pool are both empty.

The embedding below translates that loop statement by statement.  Notes on
the translation:

* The source is Python 2 (`self.pool.keys()` is a fresh list — a snapshot —
  and `None >= 0` evaluates to `False`; under Python 3 both `poll() >= 0`
  on a running process and deleting keys during iteration would raise).
* A spawned OS process is modelled by `Proc`: it carries the pid the OS
  assigned, the time (loop-iteration count) at which it terminates
  (`deadline`), and the exit status `poll` reports from then on.  The
  behaviour of the outside world is an *environment* `env : Nat → Nat × Int`
  giving, for the `n`-th spawned process, its running duration in time
  units and its exit status (negative = killed by a signal, as in Python's
  `subprocess`).  `busy_wait` advances the clock by one unit.
* Ghost fields (`spawnLog`, `callbackLog`, `removeLog`, `progress`,
  `progressTotal`, `finalizeCount`, `highWater`) record the externally
  observable events — process creations, callback invocations, pool
  removals, progress-bar updates/finalization, and the high-water mark of
  the pool size — without changing the control flow.
* Exceptions (`IndexError` from `commands.pop(0)` in debug mode,
  `NotEnoughWorkers` from the constructor) become an `Except` error.
* The `while` loop is run on fuel: `runLoop env fuel s = none` means the
  loop was still running after `fuel` iterations.
-/

namespace Littleworkers

/-- A command is a shell string; Python truthiness: `""` is falsy. -/
abbrev Cmd := String

/-- Exceptions that can escape the embedded code:
`indexError` is the `IndexError` that `self.commands.pop(0)` raises on an
empty list and that `next_command` re-raises when `debug` is set (the
spec's `QueueExhausted`); `notEnoughWorkers` is raised by `Pool.__init__`
when `workers < 1` (the spec's `ConfigurationError`). -/
inductive RunErr where
  | indexError
  | notEnoughWorkers
deriving Repr, DecidableEq

/-- One spawned OS process: its pid, the time at which it terminates and
the exit status it then reports.  `exitCode < 0` models a process killed
by a signal (Python's `subprocess` convention). -/
structure Proc where
  pid : Nat
  deadline : Nat
  exitCode : Int
deriving Repr, DecidableEq

/-- `Popen.poll()` at time `t`: `none` (Python `None`) while the process
is still running, `some exitCode` once it has terminated. -/
def Proc.poll (t : Nat) (p : Proc) : Option Int :=
  if p.deadline ≤ t then some p.exitCode else none

/-- The reap test `self.pool[pid].poll() >= 0` of `run` (line 203).
Python 2 orders `None` below every integer, so `None >= 0` is `False`:
a still-running process fails the test, and so does a process terminated
by a signal (negative status). -/
def pollGE0 (t : Nat) (p : Proc) : Bool :=
  match p.poll t with
  | none => false
  | some c => decide (0 ≤ c)

/-- The mutable state of one `Pool.run` invocation, plus ghost logs of the
observable events.  `pool` is the dict `self.pool` as an association list
in insertion order; `commands` is `self.commands`; `nextPid` is the next
pid the OS will hand out; `time` is the loop clock advanced by
`busy_wait`. -/
structure RunState where
  workers : Nat
  debug : Bool
  commands : List Cmd
  pool : List Proc
  nextPid : Nat
  time : Nat
  /-- `bool(self.callback)`: a completion callback is installed. -/
  cbSet : Bool
  /-- the `progressbar=True` argument of `run`. -/
  pbOn : Bool
  /-- the total the `ProgressBar` was constructed with (`none` when
  progress reporting is off). -/
  progressTotal : Option Nat
  /-- ghost: `(pid, command)` for every `create_process` call, in order. -/
  spawnLog : List (Nat × Cmd)
  /-- ghost: the pid of every process handed to the callback, in order. -/
  callbackLog : List Nat
  /-- ghost: every pid removed from the pool, in order. -/
  removeLog : List Nat
  /-- ghost: number of `progressbar.update()` calls. -/
  progress : Nat
  /-- ghost: number of `progressbar.__exit__` calls. -/
  finalizeCount : Nat
  /-- ghost: the largest value `len(self.pool)` ever reached. -/
  highWater : Nat
deriving Repr, DecidableEq

/-- `Pool.busy_wait` (line 160): sleep one time unit. -/
def busy_wait (s : RunState) : RunState :=
  { s with time := s.time + 1 }

/-- `Pool.next_command` (lines 81–94): `self.commands.pop(0)` returns the
head and leaves the tail; on an empty list it raises `IndexError`, which
is re-raised when `self.debug` and otherwise swallowed, returning
`None`. -/
def next_command (debug : Bool) (commands : List Cmd) :
    Except RunErr (Option Cmd × List Cmd) :=
  match commands with
  | [] => if debug then .error .indexError else .ok (none, [])
  | c :: rest => .ok (some c, rest)

/-- `Pool.create_process` (lines 109–116): spawn the command.  The OS
assigns pid `pid`; the environment decides how long the process runs and
with which status it exits. -/
def create_process (env : Nat → Nat × Int) (pid t : Nat) : Proc :=
  ⟨pid, t + (env pid).1, (env pid).2⟩

/-- `Pool.add_to_pool` (lines 127–132): `self.pool[proc.pid] = proc`.
The pid is fresh, so this appends a new entry.  The ghost `highWater`
records the pool size this reaches. -/
def add_to_pool (s : RunState) (p : Proc) : RunState :=
  { s with pool := s.pool ++ [p],
           highWater := max s.highWater (s.pool.length + 1) }

/-- The part of the state the reap pass (lines 199–208) reads and
writes. -/
structure ReapState where
  pool : List Proc
  callbackLog : List Nat
  progress : Nat
  removeLog : List Nat
deriving Repr, DecidableEq

/-- The reap pass of `run` (lines 199–208):

    for pid in self.pool.keys():
        if self.pool[pid].poll() >= 0:
            if self.callback:
                self.callback(self.pool[pid])
            if progressbar:
                self.progressbar.update()
            self.remove_from_pool(pid)

`keys` is the Python 2 snapshot list `self.pool.keys()`, fixed before the
loop; `del self.pool[pid]` inside `remove_from_pool` only mutates the
dict, never `keys`.  Dict keys are unique and only the key currently
being visited is ever deleted, so the `self.pool[pid]` lookup always
succeeds; the `none` branch below is unreachable whenever the snapshot
keys are the (distinct) keys of `pool` (proved in `reap_pass_eq`). -/
def reap_pass (t : Nat) (cbSet pbOn : Bool) :
    List Nat → ReapState → ReapState
  | [], r => r
  | pid :: keys, r =>
    match r.pool.find? (fun p => p.pid == pid) with
    | none => reap_pass t cbSet pbOn keys r
    | some p =>
      if pollGE0 t p then
        reap_pass t cbSet pbOn keys
          { pool := r.pool.filter (fun q => q.pid != pid),
            callbackLog := r.callbackLog ++ (if cbSet then [p.pid] else []),
            progress := r.progress + (if pbOn then 1 else 0),
            removeLog := r.removeLog ++ [pid] }
      else
        reap_pass t cbSet pbOn keys r

/-- The tail of one loop iteration after the admission step: the reap
pass over a snapshot of the pool's keys, the `keep_running` update
`self.command_count() or len(self.pool) > 0` (line 210, truthy iff the
queue or the pool is non-empty), and the closing `busy_wait`. -/
def finish_iter (s : RunState) : Bool × RunState :=
  let r := reap_pass s.time s.cbSet s.pbOn (s.pool.map Proc.pid)
    ⟨s.pool, s.callbackLog, s.progress, s.removeLog⟩
  let s1 := { s with pool := r.pool, callbackLog := r.callbackLog,
                     progress := r.progress, removeLog := r.removeLog }
  ((s1.commands.length != 0) || (decide (0 < s1.pool.length)), busy_wait s1)

/-- One iteration of the `while keep_running` body of `run`
(lines 186–211).  The returned `Bool` is the truthiness of
`keep_running` when the iteration ends; the `continue` paths (empty or
falsy command after `busy_wait`) leave `keep_running` at its entry value
`True`. -/
def step (env : Nat → Nat × Int) (s : RunState) :
    Except RunErr (Bool × RunState) :=
  -- self.inspect_pool() only logs.
  if s.pool.length ≤ min s.commands.length s.workers then
    match next_command s.debug s.commands with
    | .error e => .error e
    | .ok (copt, rest) =>
      match copt with
      | none =>
        -- `if not command: self.busy_wait(); continue`
        .ok (true, busy_wait { s with commands := rest })
      | some c =>
        if c.isEmpty then
          -- a falsy command ("" is falsy) takes the same branch
          .ok (true, busy_wait { s with commands := rest })
        else
          let p := create_process env s.nextPid s.time
          let s1 := add_to_pool
            { s with commands := rest,
                     nextPid := s.nextPid + 1,
                     spawnLog := s.spawnLog ++ [(s.nextPid, c)] } p
          .ok (finish_iter s1)
  else
    .ok (finish_iter s)

/-- The state after `n` iterations of the loop body (`none` once an
exception has escaped).  Every intermediate state of `run` is of this
form. -/
def iterate (env : Nat → Nat × Int) : Nat → RunState → Option RunState
  | 0, s => some s
  | n + 1, s =>
    match step env s with
    | .error _ => none
    | .ok (_, s') => iterate env n s'

/-- The `while keep_running` loop of `run` on fuel: `none` means the loop
was still running after `fuel` iterations; `some (.error e)` means an
exception escaped; `some (.ok s)` means the loop exited normally in
state `s`. -/
def runLoop (env : Nat → Nat × Int) :
    Nat → RunState → Option (Except RunErr RunState)
  | 0, _ => none
  | n + 1, s =>
    match step env s with
    | .error e => some (.error e)
    | .ok (true, s') => runLoop env n s'
    | .ok (false, s') => some (.ok s')

/-- The state of `run` just after its prologue (lines 175–184):
`prepare_commands` copied the command list, the callback was installed,
and — when `progressbar=True` — `init_progressbar` built a
`ProgressBar(self.command_count())` sized to the command count measured
at that moment. -/
def initState (workers : Nat) (debug : Bool) (cmds : List Cmd)
    (cbSet pbOn : Bool) : RunState :=
  { workers := workers, debug := debug, commands := cmds, pool := [],
    nextPid := 0, time := 0, cbSet := cbSet, pbOn := pbOn,
    progressTotal := if pbOn then some cmds.length else none,
    spawnLog := [], callbackLog := [], removeLog := [], progress := 0,
    finalizeCount := 0, highWater := 0 }

/-- `Pool.run` (lines 168–214): prologue, the fueled loop, and — when the
loop exits normally with `progressbar=True` — the single
`self.progressbar.__exit__(None, None, None)` call (line 214). -/
def run (env : Nat → Nat × Int) (fuel : Nat) (workers : Nat) (debug : Bool)
    (cmds : List Cmd) (cbSet pbOn : Bool) :
    Option (Except RunErr RunState) :=
  match runLoop env fuel (initState workers debug cmds cbSet pbOn) with
  | some (.ok s) =>
    some (.ok (if s.pbOn then { s with finalizeCount := s.finalizeCount + 1 }
               else s))
  | r => r

/-- The final state of a `run` that returned normally. -/
def finalState : Option (Except RunErr RunState) → Option RunState
  | some (.ok s) => some s
  | _ => none

/-- The `highWater` ghost of an intermediate state (`0` when the loop is
not in a normal state). -/
def hwOf : Option RunState → Nat
  | none => 0
  | some s => s.highWater

/-- The pool's pid list at an intermediate state. -/
def poolPidsOf : Option RunState → Option (List Nat) :=
  Option.map (fun s => s.pool.map Proc.pid)

/-- The pool's size at an intermediate state (`0` when the loop is not
in a normal state). -/
def plenOf : Option RunState → Nat
  | none => 0
  | some s => s.pool.length

/-- Capacity invariant of the scheduling loop for worker limit `N` and
initial command count `M`: the pool size — and its high-water mark,
which is updated inside `add_to_pool` and therefore also sees the state
between admission and the capacity re-check — never exceeds
`min N M + 1`.  The `+ 1` is forced by the `<=` in the admission guard
`len(pool) <= min(command_count, workers)`, which admits one more
process when the pool is exactly at `min(remaining, N)`. -/
structure PoolBound (N M : Nat) (s : RunState) : Prop where
  workers_eq : s.workers = N
  commands_le : s.commands.length ≤ M
  pool_le : s.pool.length ≤ min N M + 1
  hw_le : s.highWater ≤ min N M + 1

/-- The full bookkeeping invariant of the loop, for an original command
list `cmds0` without falsy entries: the spawn log and the remaining
queue partition `cmds0`; pids are handed out consecutively; every
spawned pid is either in flight or reaped (`pool_perm`, a permutation,
so nothing is ever reaped twice); the callback log and the progress
counter track the removal log; the progress-bar total and finalize
count are what the prologue set. -/
structure Exact (cmds0 : List Cmd) (cb pb : Bool) (s : RunState) : Prop where
  cb_eq : s.cbSet = cb
  pb_eq : s.pbOn = pb
  spawn_cmds : s.spawnLog.map Prod.snd ++ s.commands = cmds0
  spawn_pids : s.spawnLog.map Prod.fst = List.range s.nextPid
  pool_perm :
    List.Perm (s.pool.map Proc.pid ++ s.removeLog) (List.range s.nextPid)
  cb_log : s.callbackLog = if cb then s.removeLog else []
  pr_count : s.progress = if pb then s.removeLog.length else 0
  pt_eq : s.progressTotal = if pb then some cmds0.length else none
  fc_eq : s.finalizeCount = 0

/-- The fields of a freshly constructed `Pool` that the claims are about
(`__init__`, lines 43–53). -/
structure PoolCfg where
  workers : Int
  pool : List Proc
  commands : List Cmd
  cbSet : Bool
  debug : Bool
deriving Repr, DecidableEq

/-- `Pool.__init__` (lines 43–53): `workers < 1` raises
`NotEnoughWorkers`; otherwise the pool starts with an empty dict, an
empty command list and no callback. -/
def poolInit (workers : Int) (debug : Bool) : Except RunErr PoolCfg :=
  if workers < 1 then .error .notEnoughWorkers
  else .ok { workers := workers, pool := [], commands := [],
             cbSet := false, debug := debug }

/-! ## Basic lemmas -/

/-- In a state with an empty queue and an empty pool (and `debug` off),
one loop iteration only busy-waits: the admission check passes
(`0 ≤ min(0, workers)`), `next_command` returns `None`, and the
`continue` is taken — skipping the `keep_running` update, so the loop
keeps spinning. -/
theorem step_idle (env : Nat → Nat × Int) (s : RunState)
    (h1 : s.commands = []) (h2 : s.pool = []) (h3 : s.debug = false) :
    step env s = .ok (true, busy_wait s) := by
  obtain ⟨w, d, cs, pl, np, t, cb, pb, pt, sl, cl, rl, pr, fc, hw⟩ := s
  simp only at h1 h2 h3
  subst h1 h2 h3
  simp [step, next_command]

/-- Iterating from an empty-queue/empty-pool state only advances the
clock, forever. -/
theorem iterate_idle (env : Nat → Nat × Int) :
    ∀ (n : Nat) (s : RunState), s.commands = [] → s.pool = [] →
      s.debug = false →
      iterate env n s = some { s with time := s.time + n } ∧
      runLoop env n s = none := by
  intro n
  induction n with
  | zero => intro s _ _ _; constructor <;> simp [iterate, runLoop]
  | succ n ih =>
    intro s h1 h2 h3
    have hstep := step_idle env s h1 h2 h3
    have hrec := ih (busy_wait s) h1 h2 h3
    have ht : s.time + 1 + n = s.time + (n + 1) := by omega
    constructor
    · rw [iterate, hstep]
      show iterate env n (busy_wait s) = _
      rw [hrec.1]
      simp only [busy_wait]
      rw [ht]
    · rw [runLoop, hstep]
      show runLoop env n (busy_wait s) = none
      exact hrec.2

/-- The reap test in terms of the process's fate: it passes exactly for a
process that has terminated (`deadline ≤ t`) with a non-negative exit
status. -/
theorem pollGE0_eq (t : Nat) (p : Proc) :
    pollGE0 t p = (decide (p.deadline ≤ t) && decide (0 ≤ p.exitCode)) := by
  unfold pollGE0 Proc.poll
  by_cases h : p.deadline ≤ t <;> simp [h]

/-- Generalised closed form of the reap pass: the keys still to visit are
those of `rest`, while `kept` holds the already-visited entries that were
not reaped.  Every key of the snapshot is looked up exactly once; the
finished entries are removed (and logged) exactly once, in snapshot
order; the unfinished ones are untouched. -/
theorem reap_pass_go (t : Nat) (cb pb : Bool) :
    ∀ (rest kept : List Proc) (cbL rmL : List Nat) (pr : Nat),
      ((kept ++ rest).map Proc.pid).Nodup →
      reap_pass t cb pb (rest.map Proc.pid) ⟨kept ++ rest, cbL, pr, rmL⟩ =
        ⟨kept ++ rest.filter (fun p => !pollGE0 t p),
         cbL ++ (if cb then (rest.filter (pollGE0 t)).map Proc.pid else []),
         pr + (if pb then (rest.filter (pollGE0 t)).length else 0),
         rmL ++ (rest.filter (pollGE0 t)).map Proc.pid⟩ := by
  intro rest
  induction rest with
  | nil =>
    intro kept cbL rmL pr _
    simp [reap_pass]
  | cons p rest ih =>
    intro kept cbL rmL pr h
    have hh : (kept.map Proc.pid ++ (p.pid :: rest.map Proc.pid)).Nodup := by
      simpa [List.map_append] using h
    have hdisj : ∀ q ∈ kept, (q.pid == p.pid) = false := by
      intro q hq
      have hnm : q.pid ∉ p.pid :: rest.map Proc.pid :=
        List.disjoint_of_nodup_append hh (List.mem_map_of_mem Proc.pid hq)
      simp only [List.mem_cons, not_or] at hnm
      simpa using hnm.1
    have hpnotin : p.pid ∉ rest.map Proc.pid := by
      have := hh.of_append_right
      exact (List.nodup_cons.mp this).1
    have hfind : (kept ++ p :: rest).find? (fun q => q.pid == p.pid)
        = some p := by
      rw [List.find?_append]
      have h1 : kept.find? (fun q => q.pid == p.pid) = none :=
        List.find?_eq_none.mpr (by intro q hq; simp [hdisj q hq])
      rw [h1, List.find?_cons_of_pos _ (by simp)]
      rfl
    have h' : ((kept ++ rest).map Proc.pid).Nodup := by
      have hsub : (kept ++ rest).Sublist (kept ++ p :: rest) :=
        (List.sublist_cons_self p rest).append_left kept
      exact h.sublist (hsub.map Proc.pid)
    simp only [List.map_cons, reap_pass, hfind]
    by_cases hp : pollGE0 t p = true
    · rw [if_pos hp]
      have hkept : kept.filter (fun q => q.pid != p.pid) = kept :=
        List.filter_eq_self.mpr (by intro q hq; simpa using hdisj q hq)
      have hrest : rest.filter (fun q => q.pid != p.pid) = rest := by
        refine List.filter_eq_self.mpr ?_
        intro q hq
        simp only [bne_iff_ne, ne_eq]
        intro hqp
        exact hpnotin (hqp ▸ List.mem_map_of_mem Proc.pid hq)
      have hpool : (kept ++ p :: rest).filter (fun q => q.pid != p.pid)
          = kept ++ rest := by
        rw [List.filter_append, hkept, List.filter_cons]
        simp [hrest]
      rw [hpool, ih kept (cbL ++ (if cb then [p.pid] else []))
        (rmL ++ [p.pid]) (pr + (if pb then 1 else 0)) h']
      have hfc : (p :: rest).filter (pollGE0 t)
          = p :: rest.filter (pollGE0 t) := by
        simp [List.filter_cons, hp]
      rw [hfc]
      have hfk : (p :: rest).filter (fun q => !pollGE0 t q)
          = rest.filter (fun q => !pollGE0 t q) := by
        simp [List.filter_cons, hp]
      rw [hfk]
      cases cb <;> cases pb <;>
        simp [ReapState.mk.injEq, List.append_assoc] <;> omega
    · rw [if_neg hp]
      have hre : kept ++ p :: rest = (kept ++ [p]) ++ rest := by simp
      rw [hre, ih (kept ++ [p]) cbL rmL pr (by rw [← hre]; exact h)]
      have hfc : (p :: rest).filter (pollGE0 t)
          = rest.filter (pollGE0 t) := by
        simp [List.filter_cons, hp]
      rw [hfc]
      have hfk : (p :: rest).filter (fun q => !pollGE0 t q)
          = p :: rest.filter (fun q => !pollGE0 t q) := by
        simp [List.filter_cons, hp]
      rw [hfk]
      simp [ReapState.mk.injEq, List.append_assoc]

/-- Closed form of the whole reap pass over the snapshot of the pool's
keys (the `kept := []` instance of `reap_pass_go`), for use by the loop
invariants. -/
theorem reap_pass_eq (t : Nat) (cb pb : Bool) (pool : List Proc)
    (cbL rmL : List Nat) (pr : Nat) (h : (pool.map Proc.pid).Nodup) :
    reap_pass t cb pb (pool.map Proc.pid) ⟨pool, cbL, pr, rmL⟩ =
      ⟨pool.filter (fun p => !pollGE0 t p),
       cbL ++ (if cb then (pool.filter (pollGE0 t)).map Proc.pid else []),
       pr + (if pb then (pool.filter (pollGE0 t)).length else 0),
       rmL ++ (pool.filter (pollGE0 t)).map Proc.pid⟩ := by
  have hgo := reap_pass_go t cb pb pool [] cbL rmL pr (by simpa using h)
  simpa using hgo

/-! ## Claim theorems -/

/-- C9: the reap pass iterates over the stable snapshot
`self.pool.keys()` (a fresh list in Python 2) taken before any removal,
so deleting entries during the pass never skips, repeats or invalidates
the iteration: its outcome is a pure function of the pool at the start
of the pass — every handle present at the start is polled, the finished
ones (and only those) are removed and logged exactly once each, in
snapshot order, and the unfinished ones are left untouched. -/
theorem C9_reap_pass_snapshot (t : Nat) (cb pb : Bool) (pool : List Proc)
    (cbL rmL : List Nat) (pr : Nat) (h : (pool.map Proc.pid).Nodup) :
    reap_pass t cb pb (pool.map Proc.pid) ⟨pool, cbL, pr, rmL⟩ =
      ⟨pool.filter (fun p => !pollGE0 t p),
       cbL ++ (if cb then (pool.filter (pollGE0 t)).map Proc.pid else []),
       pr + (if pb then (pool.filter (pollGE0 t)).length else 0),
       rmL ++ (pool.filter (pollGE0 t)).map Proc.pid⟩ := by
  have hgo := reap_pass_go t cb pb pool [] cbL rmL pr (by simpa using h)
  simpa using hgo

/-- Witness for C9: a pass over a pool holding a finished process (pid
0), a running one (pid 1) and a signal-killed one (pid 2) reaps exactly
pid 0. -/
theorem C9_reap_pass_snapshot_witness :
    reap_pass 1 true true [0, 1, 2]
        ⟨[⟨0, 0, 0⟩, ⟨1, 5, 0⟩, ⟨2, 0, -1⟩], [], 0, []⟩ =
      ⟨[⟨1, 5, 0⟩, ⟨2, 0, -1⟩], [0], 1, [0]⟩ :=
  C9_reap_pass_snapshot 1 true true [⟨0, 0, 0⟩, ⟨1, 5, 0⟩, ⟨2, 0, -1⟩]
    [] [] 0 (by decide)

/-- C4 (amended): the reap pass detects as finished exactly the
processes that have terminated *with a non-negative exit status*; each
of those triggers the callback and the progress update and is removed
exactly once.  A process that terminated with a negative status (killed
by a signal) fails the `poll() >= 0` test and stays in the In-Flight
Set, contrary to the original claim that any terminated process is
treated identically. -/
theorem C4_reap_requires_nonneg_status (t : Nat) (cb pb : Bool)
    (pool : List Proc) (cbL rmL : List Nat) (pr : Nat)
    (h : (pool.map Proc.pid).Nodup) :
    (reap_pass t cb pb (pool.map Proc.pid) ⟨pool, cbL, pr, rmL⟩).pool =
      pool.filter
        (fun p => !(decide (p.deadline ≤ t) && decide (0 ≤ p.exitCode))) ∧
    (reap_pass t cb pb (pool.map Proc.pid) ⟨pool, cbL, pr, rmL⟩).removeLog =
      rmL ++ (pool.filter
        (fun p => decide (p.deadline ≤ t) && decide (0 ≤ p.exitCode))).map
          Proc.pid ∧
    (∀ p ∈ pool, p.deadline ≤ t → p.exitCode < 0 →
      p ∈ (reap_pass t cb pb (pool.map Proc.pid) ⟨pool, cbL, pr, rmL⟩).pool) := by
  have hgo := reap_pass_go t cb pb pool [] cbL rmL pr (by simpa using h)
  simp only [List.nil_append] at hgo
  have hfpos : pool.filter (pollGE0 t) = pool.filter
      (fun p => decide (p.deadline ≤ t) && decide (0 ≤ p.exitCode)) :=
    List.filter_congr (fun q _ => pollGE0_eq t q)
  have hfneg : pool.filter (fun p => !pollGE0 t p) = pool.filter
      (fun p => !(decide (p.deadline ≤ t) && decide (0 ≤ p.exitCode))) :=
    List.filter_congr (fun q _ => by rw [pollGE0_eq])
  refine ⟨?_, ?_, ?_⟩
  · rw [hgo]
    exact hfneg
  · rw [hgo]
    show rmL ++ (pool.filter (pollGE0 t)).map Proc.pid = _
    rw [hfpos]
  · intro p hmem ht hneg
    rw [hgo]
    show p ∈ pool.filter (fun p => !pollGE0 t p)
    rw [List.mem_filter]
    refine ⟨hmem, ?_⟩
    rw [pollGE0_eq]
    simp [ht]
    omega

/-- Witness for C4 (amended): at time 4 a pool with a cleanly exited
process (pid 0, status 0) and a signal-killed one (pid 1, status -9):
only pid 0 is reaped, pid 1 stays. -/
theorem C4_reap_requires_nonneg_status_witness :
    (reap_pass 4 true false [0, 1]
        ⟨[⟨0, 2, 0⟩, ⟨1, 2, -9⟩], [], 0, []⟩).pool = [⟨1, 2, -9⟩] ∧
    (reap_pass 4 true false [0, 1]
        ⟨[⟨0, 2, 0⟩, ⟨1, 2, -9⟩], [], 0, []⟩).removeLog = [0] ∧
    (∀ p ∈ ([⟨0, 2, 0⟩, ⟨1, 2, -9⟩] : List Proc), p.deadline ≤ 4 →
      p.exitCode < 0 →
      p ∈ (reap_pass 4 true false [0, 1]
        ⟨[⟨0, 2, 0⟩, ⟨1, 2, -9⟩], [], 0, []⟩).pool) :=
  C4_reap_requires_nonneg_status 4 true false [⟨0, 2, 0⟩, ⟨1, 2, -9⟩]
    [] [] 0 (by decide)

/-- C3: contrary to the claim that `run` on an empty command list (and
empty In-Flight Set) returns immediately, the loop never terminates:
the admission check `0 ≤ min(0, workers)` passes, `next_command`
returns `None`, and the `continue` after the idle wait jumps back to
the top of the loop without ever reaching the `keep_running` update.
For every fuel `n` the loop is still running, the state having only
its clock advanced — in particular no process was ever spawned
(`spawnLog` stays `[]`). -/
theorem C3_run_empty_loops_forever (env : Nat → Nat × Int)
    (w : Nat) (cb pb : Bool) (n : Nat) :
    runLoop env n (initState w false [] cb pb) = none ∧
    iterate env n (initState w false [] cb pb) =
      some { initState w false [] cb pb with time := n } := by
  have h := iterate_idle env n (initState w false [] cb pb) rfl rfl rfl
  exact ⟨h.2, by simpa [initState] using h.1⟩

/-- C6: `Pool.__init__` fails with `NotEnoughWorkers` (the spec's
`ConfigurationError`) exactly when `workers < 1`, succeeds exactly when
`workers ≥ 1`, and a successful construction starts with an empty
command queue and an empty pool — no command has been processed. -/
theorem C6_pool_init_spec (w : Int) (d : Bool) :
    ((∃ cfg, poolInit w d = .ok cfg) ↔ 1 ≤ w) ∧
    (poolInit w d = .error .notEnoughWorkers ↔ w < 1) ∧
    (∀ cfg, poolInit w d = .ok cfg →
      cfg.commands = [] ∧ cfg.pool = [] ∧ cfg.workers = w) := by
  unfold poolInit
  by_cases h : w < 1
  · simp only [if_pos h]
    refine ⟨?_, ?_, ?_⟩ <;> simp <;> omega
  · simp only [if_neg h]
    refine ⟨?_, ?_, ?_⟩ <;> simp <;> omega

/-- Witness for C6 at `workers = 2` and `workers = 0`. -/
theorem C6_pool_init_spec_witness :
    (∃ cfg, poolInit 2 true = .ok cfg) ∧
    poolInit 0 false = .error .notEnoughWorkers :=
  ⟨(C6_pool_init_spec 2 true).1.mpr (by decide),
   (C6_pool_init_spec 0 false).2.1.mpr (by decide)⟩

/-- C7: `next_command` pops the head of the queue in FIFO order; on an
empty queue it returns `None` in default mode and raises the
`IndexError` (the spec's `QueueExhausted`) in debug/strict mode. -/
theorem C7_next_command_spec (d : Bool) (c : Cmd) (rest : List Cmd) :
    next_command d (c :: rest) = .ok (some c, rest) ∧
    next_command false ([] : List Cmd) = .ok (none, []) ∧
    next_command true ([] : List Cmd) = .error .indexError :=
  ⟨rfl, rfl, rfl⟩

/-- C10: when the head of the queue is the falsy command `""`, the
admission step dequeues it and takes the same `if not command` branch
as queue exhaustion: busy-wait and `continue`.  The resulting state
differs only in the dequeued head and the clock — the pool, the spawn
log, the callback log, the progress counter and the removal log are
untouched, so the command is silently discarded. -/
theorem C10_falsy_command_discarded (env : Nat → Nat × Int)
    (s : RunState) (rest : List Cmd)
    (h1 : s.commands = "" :: rest)
    (h2 : s.pool.length ≤ min s.commands.length s.workers) :
    step env s = .ok (true, busy_wait { s with commands := rest }) := by
  rw [h1] at h2
  simp only [step, h1, next_command, if_pos h2]
  rfl

/-- Witness for C10 at a concrete state. -/
theorem C10_falsy_command_discarded_witness :
    step (fun _ => (0, 0)) (initState 1 false ["", "x"] true true) =
      .ok (true, busy_wait
        { initState 1 false ["", "x"] true true with commands := ["x"] }) :=
  C10_falsy_command_discarded (fun _ => (0, 0))
    (initState 1 false ["", "x"] true true) ["x"] rfl (by decide)

/-- C1 counterexample: with `worker_count = 1` and the two commands
`["a", "b"]` (both still running), after two loop iterations the
In-Flight Set holds the two distinct pids `0` and `1` simultaneously —
the admission guard `len(pool) <= min(command_count, workers)` admits a
second process while the first is still in flight, so the pool size
exceeds `min(N, M) = min(1, 2) = 1`. -/
theorem C1_counterexample :
    poolPidsOf (iterate (fun _ => (5, 0)) 2
        (initState 1 false ["a", "b"] false false)) = some [0, 1] ∧
    min 1 2 < hwOf (iterate (fun _ => (5, 0)) 2
        (initState 1 false ["a", "b"] false false)) := by
  decide

/-- C2 counterexample: with commands `["", "x"]` (`M = 2`), `run`
returns after spawning only one process and invoking the callback only
once — the falsy command `""` is dequeued and discarded without being
spawned or reaped. -/
theorem C2_counterexample :
    (finalState (run (fun _ => (0, 0)) 2 1 false ["", "x"] true false)).map
        (fun s => (s.spawnLog.length, s.callbackLog.length)) = some (1, 1) ∧
    (["", "x"] : List Cmd).length = 2 := by
  decide

/-- C4 counterexample: a process terminated by a signal reports a
negative exit status (here `-9`), so `poll` at time `5` returns
`some (-9)` — the process *has* terminated — yet the reap test
`poll() >= 0` fails and the reap pass leaves the pool, the callback
log, the progress counter and the removal log untouched: the process is
never detected as finished. -/
theorem C4_counterexample :
    Proc.poll 5 ⟨0, 3, -9⟩ = some (-9) ∧
    reap_pass 5 true true [0] ⟨[⟨0, 3, -9⟩], [], 0, []⟩ =
      ⟨[⟨0, 3, -9⟩], [], 0, []⟩ := by
  decide

/-- C5 counterexample: with `worker_count = 1` and commands
`["a", "b"]`, where the first process runs for two time units and the
second exits immediately, the callback order is `[1, 0]` — the reverse
of the submission order `[0, 1]`.  The `<=` admission guard lets a
second command into the pool while the first is still in flight, so
`worker_count = 1` does not keep at most one command in flight. -/
theorem C5_counterexample :
    (finalState (run (fun pid => if pid == 0 then (2, 0) else (0, 0)) 3 1
        false ["a", "b"] true false)).map
        (fun s => (s.callbackLog, s.spawnLog.map Prod.fst)) =
      some ([1, 0], [0, 1]) ∧
    ([1, 0] : List Nat) ≠ [0, 1] := by
  decide

/-- C8 counterexample: with progress reporting enabled and commands
`["", "x"]` (`M = 2`), the reporter is sized to `2` but receives only
one advance signal by the time `run` returns — the falsy command is
discarded without ever reaching the reporter. -/
theorem C8_counterexample :
    (finalState (run (fun _ => (0, 0)) 2 1 false ["", "x"] false true)).map
        (fun s => (s.progressTotal, s.progress, s.finalizeCount)) =
      some (some 2, 1, 1) ∧ (1 : Nat) ≠ 2 := by
  decide

/-- The reap pass never grows the pool. -/
theorem reap_pass_pool_len (t : Nat) (cb pb : Bool) :
    ∀ (keys : List Nat) (r : ReapState),
      (reap_pass t cb pb keys r).pool.length ≤ r.pool.length := by
  intro keys
  induction keys with
  | nil => intro r; simp [reap_pass]
  | cons pid keys ih =>
    intro r
    cases hf : r.pool.find? (fun p => p.pid == pid) with
    | none =>
      simp only [reap_pass, hf]
      exact ih r
    | some p =>
      simp only [reap_pass, hf]
      by_cases hp : pollGE0 t p = true
      · rw [if_pos hp]
        refine le_trans (ih _) ?_
        simpa using List.length_filter_le _ r.pool
      · rw [if_neg hp]
        exact ih r

/-- Field bookkeeping of the post-admission part of an iteration: the
reap pass and `busy_wait` leave the queue, the worker limit, the debug
flag and the high-water mark alone and never grow the pool; and
`keep_running = false` means the queue and the pool both ended the
iteration empty. -/
theorem finish_iter_spec (s : RunState) :
    (finish_iter s).2.workers = s.workers ∧
    (finish_iter s).2.debug = s.debug ∧
    (finish_iter s).2.commands = s.commands ∧
    (finish_iter s).2.highWater = s.highWater ∧
    (finish_iter s).2.pool.length ≤ s.pool.length ∧
    ((finish_iter s).1 = false →
      (finish_iter s).2.commands = [] ∧ (finish_iter s).2.pool = []) := by
  unfold finish_iter
  simp only [busy_wait]
  refine ⟨trivial, trivial, trivial, trivial, ?_, ?_⟩
  · exact reap_pass_pool_len s.time s.cbSet s.pbOn (s.pool.map Proc.pid)
      ⟨s.pool, s.callbackLog, s.progress, s.removeLog⟩
  · intro hk
    simp only [Bool.or_eq_false_iff, bne_eq_false_iff_eq,
      decide_eq_false_iff_not, Nat.not_lt, Nat.le_zero] at hk
    exact ⟨List.eq_nil_of_length_eq_zero hk.1,
      List.eq_nil_of_length_eq_zero hk.2⟩

/-- Exhaustive case analysis of one loop iteration: either the guard
admitted and the queue was empty (idle `continue`), or the dequeued
command was falsy (discard `continue`), or a process was spawned and
the iteration finished through the reap pass; or the guard refused and
the iteration went straight to the reap pass. -/
theorem step_cases (env : Nat → Nat × Int) (s : RunState) (k : Bool)
    (s' : RunState) (h : step env s = .ok (k, s')) :
    (s.pool.length ≤ min s.commands.length s.workers ∧
      ((s.commands = [] ∧ k = true ∧ s' = busy_wait s) ∨
       (∃ c rest, s.commands = c :: rest ∧ c.isEmpty = true ∧ k = true ∧
         s' = busy_wait { s with commands := rest }) ∨
       (∃ c rest, s.commands = c :: rest ∧ c.isEmpty = false ∧
         (k, s') = finish_iter (add_to_pool
           { s with commands := rest, nextPid := s.nextPid + 1,
                    spawnLog := s.spawnLog ++ [(s.nextPid, c)] }
           (create_process env s.nextPid s.time))))) ∨
    (¬ s.pool.length ≤ min s.commands.length s.workers ∧
      (k, s') = finish_iter s) := by
  by_cases hg : s.pool.length ≤ min s.commands.length s.workers
  · refine Or.inl ⟨hg, ?_⟩
    cases hcs : s.commands with
    | nil =>
      cases hd : s.debug
      · have hs : step env s = .ok (true, busy_wait { s with commands := [] }) := by
          unfold step
          rw [if_pos hg, hcs, hd]
          simp [next_command]
        have hv := h.symm.trans hs
        simp only [Except.ok.injEq, Prod.mk.injEq] at hv
        refine Or.inl ⟨rfl, hv.1, ?_⟩
        rw [hv.2]
        congr 1
        rw [← hcs]
      · have hs : step env s = .error .indexError := by
          unfold step
          rw [if_pos hg, hcs, hd]
          simp [next_command]
        exact absurd (h.symm.trans hs) (by simp)
    | cons c rest =>
      by_cases he : c.isEmpty = true
      · have hs : step env s =
            .ok (true, busy_wait { s with commands := rest }) := by
          unfold step
          rw [if_pos hg, hcs]
          simp [next_command, he]
        have hv := h.symm.trans hs
        simp only [Except.ok.injEq, Prod.mk.injEq] at hv
        exact Or.inr (Or.inl ⟨c, rest, rfl, he, hv.1, hv.2⟩)
      · have hs : step env s = .ok (finish_iter (add_to_pool
            { s with commands := rest, nextPid := s.nextPid + 1,
                     spawnLog := s.spawnLog ++ [(s.nextPid, c)] }
            (create_process env s.nextPid s.time))) := by
          unfold step
          rw [if_pos hg, hcs]
          simp [next_command, he]
        have hv := h.symm.trans hs
        simp only [Except.ok.injEq] at hv
        exact Or.inr (Or.inr ⟨c, rest, rfl, by simpa using he, hv⟩)
  · have hs : step env s = .ok (finish_iter s) := by
      unfold step
      rw [if_neg hg]
    have hv := h.symm.trans hs
    simp only [Except.ok.injEq] at hv
    exact Or.inr ⟨hg, hv⟩

/-- One loop iteration preserves the capacity invariant. -/
theorem step_poolBound (env : Nat → Nat × Int) (N M : Nat) (s : RunState)
    (hb : PoolBound N M s) (k : Bool) (s' : RunState)
    (hstep : step env s = .ok (k, s')) : PoolBound N M s' := by
  rcases step_cases env s k s' hstep with
    ⟨hg, hidle | hfalsy | hspawn⟩ | ⟨hg, hfin⟩
  · obtain ⟨hcs, -, hs'⟩ := hidle
    subst hs'
    exact ⟨hb.workers_eq, hb.commands_le, hb.pool_le, hb.hw_le⟩
  · obtain ⟨c, rest, hcs, -, -, hs'⟩ := hfalsy
    subst hs'
    refine ⟨hb.workers_eq, ?_, hb.pool_le, hb.hw_le⟩
    have := hb.commands_le
    rw [hcs] at this
    simp only [List.length_cons] at this
    simpa [busy_wait] using (by omega : rest.length ≤ M)
  · obtain ⟨c, rest, hcs, -, hks⟩ := hspawn
    have hs' : s' = (finish_iter (add_to_pool
        { s with commands := rest, nextPid := s.nextPid + 1,
                 spawnLog := s.spawnLog ++ [(s.nextPid, c)] }
        (create_process env s.nextPid s.time))).2 := by
      rw [← hks]
    set s1 := add_to_pool
      { s with commands := rest, nextPid := s.nextPid + 1,
               spawnLog := s.spawnLog ++ [(s.nextPid, c)] }
      (create_process env s.nextPid s.time) with hs1
    have hfs := finish_iter_spec s1
    have hw1 : s1.workers = s.workers := rfl
    have hc1 : s1.commands = rest := rfl
    have hp1 : s1.pool.length = s.pool.length + 1 := by
      simp [hs1, add_to_pool]
    have hh1 : s1.highWater = max s.highWater (s.pool.length + 1) := rfl
    have hminb : min s.commands.length s.workers ≤ min N M := by
      rw [hb.workers_eq]
      refine Nat.le_min.mpr ⟨Nat.min_le_right _ _, ?_⟩
      exact le_trans (Nat.min_le_left _ _) hb.commands_le
    have hpool1 : s1.pool.length ≤ min N M + 1 := by
      rw [hp1]; omega
    have hcr : rest.length ≤ M := by
      have := hb.commands_le
      rw [hcs] at this
      simp only [List.length_cons] at this
      omega
    refine ⟨?_, ?_, ?_, ?_⟩
    · rw [hs', hfs.1, hw1, hb.workers_eq]
    · rw [hs', hfs.2.2.1, hc1]; exact hcr
    · rw [hs']
      exact le_trans hfs.2.2.2.2.1 hpool1
    · rw [hs', hfs.2.2.2.1, hh1]
      have := hb.hw_le
      omega
  · have hs' : s' = (finish_iter s).2 := by rw [← hfin]
    have hfs := finish_iter_spec s
    refine ⟨?_, ?_, ?_, ?_⟩
    · rw [hs', hfs.1, hb.workers_eq]
    · rw [hs', hfs.2.2.1]; exact hb.commands_le
    · rw [hs']
      exact le_trans hfs.2.2.2.2.1 hb.pool_le
    · rw [hs', hfs.2.2.2.1]; exact hb.hw_le

/-- Iterating preserves the capacity invariant. -/
theorem iterate_poolBound (env : Nat → Nat × Int) (N M : Nat) :
    ∀ (n : Nat) (s : RunState), PoolBound N M s →
      ∀ s', iterate env n s = some s' → PoolBound N M s' := by
  intro n
  induction n with
  | zero =>
    intro s hb s' h
    rw [iterate] at h
    cases h
    exact hb
  | succ n ih =>
    intro s hb s' h
    rw [iterate] at h
    cases hst : step env s with
    | error e => rw [hst] at h; simp at h
    | ok p =>
      obtain ⟨k, s1⟩ := p
      rw [hst] at h
      exact ih s1 (step_poolBound env N M s hb k s1 hst) s' h

/-- C1 (amended): at every observation point of `run` — including the
point right after `add_to_pool`, recorded by the `highWater` ghost —
the In-Flight Set never holds more than `min(N, M) + 1` entries, where
`N` is the worker limit and `M` the submitted command count.  The
original bound `min(N, M)` is off by one: the admission guard
`len(pool) <= min(command_count, workers)` uses `<=`, so it admits one
further process when the pool is exactly at the bound (see
`C1_counterexample`). -/
theorem C1_pool_bounded_min_plus_one (env : Nat → Nat × Int) (N : Nat)
    (d : Bool) (cmds : List Cmd) (cb pb : Bool) (n : Nat) :
    hwOf (iterate env n (initState N d cmds cb pb)) ≤ min N cmds.length + 1 ∧
    plenOf (iterate env n (initState N d cmds cb pb)) ≤
      min N cmds.length + 1 := by
  cases hit : iterate env n (initState N d cmds cb pb) with
  | none => simp [hwOf, plenOf]
  | some s' =>
    have hb0 : PoolBound N cmds.length (initState N d cmds cb pb) :=
      ⟨rfl, le_refl _, by simp [initState], by simp [initState]⟩
    have hb := iterate_poolBound env N cmds.length n _ hb0 s' hit
    exact ⟨by simpa [hwOf] using hb.hw_le, by simpa [plenOf] using hb.pool_le⟩

/-- Closed form of the post-admission part of an iteration, valid when
the pool's pids are distinct (which the loop maintains): the reap pass
reduces to the filter/append form of `reap_pass_eq`. -/
theorem finish_iter_closed (s : RunState)
    (h : (s.pool.map Proc.pid).Nodup) :
    finish_iter s =
      ((s.commands.length != 0) ||
        (decide (0 < (s.pool.filter (fun p => !pollGE0 s.time p)).length)),
       busy_wait { s with
         pool := s.pool.filter (fun p => !pollGE0 s.time p),
         callbackLog := s.callbackLog ++
           (if s.cbSet then (s.pool.filter (pollGE0 s.time)).map Proc.pid
            else []),
         progress := s.progress +
           (if s.pbOn then (s.pool.filter (pollGE0 s.time)).length else 0),
         removeLog := s.removeLog ++
           (s.pool.filter (pollGE0 s.time)).map Proc.pid }) := by
  unfold finish_iter
  rw [reap_pass_eq s.time s.cbSet s.pbOn s.pool s.callbackLog s.removeLog
    s.progress h]

/-- The loop invariant forces the pool's pids to be distinct (they are a
sub-multiset of the already handed-out pid range). -/
theorem exact_nodup_pool (cmds0 : List Cmd) (cb pb : Bool) (s : RunState)
    (hE : Exact cmds0 cb pb s) : (s.pool.map Proc.pid).Nodup := by
  have hnd : (s.pool.map Proc.pid ++ s.removeLog).Nodup :=
    hE.pool_perm.nodup_iff.mpr (List.nodup_range s.nextPid)
  exact hnd.of_append_left

/-- The reap pass, `keep_running` update and `busy_wait` preserve the
bookkeeping invariant. -/
theorem finish_iter_exact (cmds0 : List Cmd) (cb pb : Bool) (s : RunState)
    (hE : Exact cmds0 cb pb s) :
    Exact cmds0 cb pb (finish_iter s).2 := by
  have hnd := exact_nodup_pool cmds0 cb pb s hE
  rw [finish_iter_closed s hnd]
  simp only [busy_wait]
  have hBA : List.Perm
      ((s.pool.filter (pollGE0 s.time)).map Proc.pid ++
        (s.pool.filter (fun p => !pollGE0 s.time p)).map Proc.pid)
      (s.pool.map Proc.pid) := by
    have := (List.filter_append_perm (pollGE0 s.time) s.pool).map Proc.pid
    simpa [List.map_append] using this
  refine ⟨hE.cb_eq, hE.pb_eq, hE.spawn_cmds, hE.spawn_pids, ?_, ?_, ?_,
    hE.pt_eq, hE.fc_eq⟩
  · -- pool_perm
    refine List.Perm.trans ?_ hE.pool_perm
    have h1 : List.Perm
        (s.removeLog ++ (s.pool.filter (pollGE0 s.time)).map Proc.pid)
        ((s.pool.filter (pollGE0 s.time)).map Proc.pid ++ s.removeLog) :=
      List.perm_append_comm
    refine List.Perm.trans (h1.append_left _) ?_
    rw [← List.append_assoc]
    refine List.Perm.append_right s.removeLog ?_
    refine List.Perm.trans List.perm_append_comm hBA
  · -- cb_log
    rw [hE.cb_eq, hE.cb_log]
    cases cb <;> simp
  · -- pr_count
    rw [hE.pb_eq, hE.pr_count]
    cases pb <;> simp [List.length_append, List.length_map]

/-- One loop iteration preserves the bookkeeping invariant, provided no
command of the original list is falsy. -/
theorem step_exact (env : Nat → Nat × Int) (cmds0 : List Cmd)
    (cb pb : Bool) (htr : ∀ c ∈ cmds0, c.isEmpty = false)
    (s : RunState) (k : Bool) (s' : RunState)
    (hE : Exact cmds0 cb pb s) (h : step env s = .ok (k, s')) :
    Exact cmds0 cb pb s' := by
  rcases step_cases env s k s' h with
    ⟨hg, hidle | hfalsy | hspawn⟩ | ⟨hg, hfin⟩
  · obtain ⟨hcs, -, hs'⟩ := hidle
    subst hs'
    exact ⟨hE.cb_eq, hE.pb_eq, hE.spawn_cmds, hE.spawn_pids, hE.pool_perm,
      hE.cb_log, hE.pr_count, hE.pt_eq, hE.fc_eq⟩
  · obtain ⟨c, rest, hcs, he, -, -⟩ := hfalsy
    exfalso
    have hc0 : c ∈ cmds0 := by
      rw [← hE.spawn_cmds, hcs]
      exact List.mem_append_right _ (List.mem_cons_self c rest)
    rw [htr c hc0] at he
    exact Bool.false_ne_true he
  · obtain ⟨c, rest, hcs, -, hks⟩ := hspawn
    have hs' : s' = (finish_iter (add_to_pool
        { s with commands := rest, nextPid := s.nextPid + 1,
                 spawnLog := s.spawnLog ++ [(s.nextPid, c)] }
        (create_process env s.nextPid s.time))).2 := by
      rw [← hks]
    subst hs'
    refine finish_iter_exact cmds0 cb pb _ ?_
    refine ⟨hE.cb_eq, hE.pb_eq, ?_, ?_, ?_, hE.cb_log, hE.pr_count,
      hE.pt_eq, hE.fc_eq⟩
    · -- spawn_cmds
      show (s.spawnLog ++ [(s.nextPid, c)]).map Prod.snd ++ rest = cmds0
      rw [List.map_append, List.append_assoc]
      have := hE.spawn_cmds
      rw [hcs] at this
      simpa using this
    · -- spawn_pids
      show (s.spawnLog ++ [(s.nextPid, c)]).map Prod.fst
        = List.range (s.nextPid + 1)
      rw [List.map_append, hE.spawn_pids, List.range_succ s.nextPid]
      rfl
    · -- pool_perm
      show List.Perm
        ((s.pool ++ [create_process env s.nextPid s.time]).map Proc.pid ++
          s.removeLog) (List.range (s.nextPid + 1))
      rw [List.map_append, List.range_succ s.nextPid]
      have hpid : (create_process env s.nextPid s.time).pid = s.nextPid := rfl
      rw [List.append_assoc]
      refine List.Perm.trans
        ((@List.perm_append_comm _ ([create_process env s.nextPid
          s.time].map Proc.pid) s.removeLog).append_left
          (s.pool.map Proc.pid)) ?_
      rw [← List.append_assoc]
      exact hE.pool_perm.append_right _
  · have hs' : s' = (finish_iter s).2 := by rw [← hfin]
    subst hs'
    exact finish_iter_exact cmds0 cb pb s hE

/-- When the while-loop exits normally, the invariant still holds and
the queue and the pool are both empty. -/
theorem runLoop_exact (env : Nat → Nat × Int) (cmds0 : List Cmd)
    (cb pb : Bool) (htr : ∀ c ∈ cmds0, c.isEmpty = false) :
    ∀ (fuel : Nat) (s : RunState), Exact cmds0 cb pb s →
      ∀ s', runLoop env fuel s = some (.ok s') →
        Exact cmds0 cb pb s' ∧ s'.commands = [] ∧ s'.pool = [] := by
  intro fuel
  induction fuel with
  | zero =>
    intro s hE s' h
    rw [runLoop] at h
    simp at h
  | succ n ih =>
    intro s hE s' h
    rw [runLoop] at h
    cases hst : step env s with
    | error e => rw [hst] at h; simp at h
    | ok p =>
      obtain ⟨k, s1⟩ := p
      rw [hst] at h
      have hE1 := step_exact env cmds0 cb pb htr s k s1 hE hst
      cases k with
      | true => exact ih s1 hE1 s' h
      | false =>
        simp only [Option.some.injEq, Except.ok.injEq] at h
        subst h
        refine ⟨hE1, ?_⟩
        rcases step_cases env s false s1 hst with
          ⟨-, hidle | hfalsy | hspawn⟩ | ⟨-, hfin⟩
        · exact absurd hidle.2.1 (by simp)
        · obtain ⟨c, rest, -, -, hk, -⟩ := hfalsy
          exact absurd hk (by simp)
        · obtain ⟨c, rest, -, -, hks⟩ := hspawn
          have hfs := finish_iter_spec (add_to_pool
            { s with commands := rest, nextPid := s.nextPid + 1,
                     spawnLog := s.spawnLog ++ [(s.nextPid, c)] }
            (create_process env s.nextPid s.time))
          have hk : (finish_iter (add_to_pool
              { s with commands := rest, nextPid := s.nextPid + 1,
                       spawnLog := s.spawnLog ++ [(s.nextPid, c)] }
              (create_process env s.nextPid s.time))).1 = false := by
            rw [← hks]
          have hs1 : s1 = (finish_iter (add_to_pool
              { s with commands := rest, nextPid := s.nextPid + 1,
                       spawnLog := s.spawnLog ++ [(s.nextPid, c)] }
              (create_process env s.nextPid s.time))).2 := by
            rw [← hks]
          rw [hs1]
          exact hfs.2.2.2.2.2 hk
        · have hfs := finish_iter_spec s
          have hk : (finish_iter s).1 = false := by rw [← hfin]
          have hs1 : s1 = (finish_iter s).2 := by rw [← hfin]
          rw [hs1]
          exact hfs.2.2.2.2.2 hk

/-- The state right after `run`'s prologue satisfies the bookkeeping
invariant. -/
theorem initState_exact (N : Nat) (d : Bool) (cmds : List Cmd)
    (cb pb : Bool) : Exact cmds cb pb (initState N d cmds cb pb) := by
  refine ⟨rfl, rfl, by simp [initState], by simp [initState], ?_, ?_, ?_,
    rfl, rfl⟩
  · simp [initState]
  · cases cb <;> rfl
  · cases pb <;> rfl

/-- Everything the completion claims need about the state in which the
while-loop exits normally, for a command list without falsy entries:
the spawn log lists exactly the submitted commands in order with the
consecutive pids `0..M-1`; the removal log is a permutation of those
pids (every spawned process reaped exactly once); the callback log and
the progress counter track the removals; the progress total is the
command count measured at enable time and the bar is not yet
finalized. -/
theorem runLoop_final_facts (env : Nat → Nat × Int) (N : Nat) (d : Bool)
    (cmds : List Cmd) (cb pb : Bool) (fuel : Nat)
    (htr : ∀ c ∈ cmds, c.isEmpty = false) (s0 : RunState)
    (hrl : runLoop env fuel (initState N d cmds cb pb) = some (.ok s0)) :
    s0.spawnLog.map Prod.snd = cmds ∧
    s0.spawnLog.map Prod.fst = List.range cmds.length ∧
    List.Perm s0.removeLog (List.range cmds.length) ∧
    s0.callbackLog = (if cb then s0.removeLog else []) ∧
    s0.progress = (if pb then cmds.length else 0) ∧
    s0.progressTotal = (if pb then some cmds.length else none) ∧
    s0.finalizeCount = 0 ∧ s0.pbOn = pb ∧ s0.nextPid = cmds.length := by
  obtain ⟨hE, hcemp, hpemp⟩ := runLoop_exact env cmds cb pb htr fuel
    (initState N d cmds cb pb) (initState_exact N d cmds cb pb) s0 hrl
  have hsc : s0.spawnLog.map Prod.snd = cmds := by
    have h := hE.spawn_cmds
    rwa [hcemp, List.append_nil] at h
  have hlen : s0.spawnLog.length = cmds.length := by
    rw [← hsc, List.length_map]
  have hnp : s0.nextPid = cmds.length := by
    have h := congrArg List.length hE.spawn_pids
    simp [hlen] at h
    omega
  have hperm : List.Perm s0.removeLog (List.range cmds.length) := by
    have h := hE.pool_perm
    rw [hpemp, hnp] at h
    simpa using h
  refine ⟨hsc, ?_, hperm, hE.cb_log, ?_, ?_, hE.fc_eq, hE.pb_eq, hnp⟩
  · rw [hE.spawn_pids, hnp]
  · rw [hE.pr_count, hperm.length_eq, List.length_range]
  · rw [hE.pt_eq]

/-- C2 (amended): for every command list whose commands are all truthy
(no empty string — see `C2_counterexample` for the falsy case), if
`run` returns, it has by then spawned exactly the M submitted commands,
in order, under the distinct pids `0..M-1`; the removal log is a
duplicate-free permutation of those pids — every spawned process reaped
exactly once — and the callback, when set, was invoked exactly M times. -/
theorem C2_all_commands_spawned_reaped (env : Nat → Nat × Int) (N : Nat)
    (d : Bool) (cmds : List Cmd) (cb pb : Bool) (fuel : Nat)
    (htr : ∀ c ∈ cmds, c.isEmpty = false) :
    match finalState (run env fuel N d cmds cb pb) with
    | none => True
    | some s =>
        s.spawnLog.map Prod.snd = cmds ∧
        s.spawnLog.map Prod.fst = List.range cmds.length ∧
        List.Perm s.removeLog (List.range cmds.length) ∧
        s.removeLog.Nodup ∧
        s.callbackLog.length = (if cb then cmds.length else 0) := by
  simp only [run]
  cases hrl : runLoop env fuel (initState N d cmds cb pb) with
  | none => simp [finalState]
  | some r =>
    cases r with
    | error e => simp [finalState]
    | ok s0 =>
      obtain ⟨hsc, hsp, hperm, hcb, -, -, -, -, -⟩ :=
        runLoop_final_facts env N d cmds cb pb fuel htr s0 hrl
      have hnodup : s0.removeLog.Nodup :=
        hperm.nodup_iff.mpr (List.nodup_range _)
      have hcbl : s0.callbackLog.length = (if cb then cmds.length else 0) := by
        rw [hcb]
        cases cb
        · simp
        · simp [hperm.length_eq]
      cases hpb : s0.pbOn <;>
        simp [finalState, hsc, hsp, hperm, hnodup, hcbl, hpb]

/-- Witness for C2 (amended) at one truthy command. -/
theorem C2_all_commands_spawned_reaped_witness :
    match finalState (run (fun _ => (0, 0)) 2 1 false ["x"] true false) with
    | none => True
    | some s =>
        s.spawnLog.map Prod.snd = ["x"] ∧
        s.spawnLog.map Prod.fst = List.range (["x"] : List Cmd).length ∧
        List.Perm s.removeLog (List.range (["x"] : List Cmd).length) ∧
        s.removeLog.Nodup ∧
        s.callbackLog.length =
          (if true then (["x"] : List Cmd).length else 0) :=
  C2_all_commands_spawned_reaped (fun _ => (0, 0)) 1 false ["x"] true false 2
    (by decide)

/-- C8 (amended): with progress reporting enabled and a command list
whose commands are all truthy (see `C8_counterexample` for the falsy
case), the reporter is sized to the command count measured when
`init_progressbar` runs, and if `run` returns it has by then delivered
exactly M advance signals and finalized the reporter exactly once. -/
theorem C8_progress_sized_and_exact (env : Nat → Nat × Int) (N : Nat)
    (d : Bool) (cmds : List Cmd) (cb : Bool) (fuel : Nat)
    (htr : ∀ c ∈ cmds, c.isEmpty = false) :
    (initState N d cmds cb true).progressTotal = some cmds.length ∧
    match finalState (run env fuel N d cmds cb true) with
    | none => True
    | some s =>
        s.progressTotal = some cmds.length ∧
        s.progress = cmds.length ∧
        s.finalizeCount = 1 := by
  refine ⟨rfl, ?_⟩
  simp only [run]
  cases hrl : runLoop env fuel (initState N d cmds cb true) with
  | none => simp [finalState]
  | some r =>
    cases r with
    | error e => simp [finalState]
    | ok s0 =>
      obtain ⟨-, -, -, -, hpr, hpt, hfc, hpb, -⟩ :=
        runLoop_final_facts env N d cmds cb true fuel htr s0 hrl
      simp [finalState, hpb, hpt, hpr, hfc]

/-- Witness for C8 (amended) at one truthy command. -/
theorem C8_progress_sized_and_exact_witness :
    (initState 1 false ["x"] false true).progressTotal =
      some (["x"] : List Cmd).length ∧
    match finalState (run (fun _ => (0, 0)) 2 1 false ["x"] false true) with
    | none => True
    | some s =>
        s.progressTotal = some (["x"] : List Cmd).length ∧
        s.progress = (["x"] : List Cmd).length ∧
        s.finalizeCount = 1 :=
  C8_progress_sized_and_exact (fun _ => (0, 0)) 1 false ["x"] false 2
    (by decide)

/-- Helper for C5: with `worker_count = 1`, non-falsy commands, and an
environment in which every process has terminated (with a non-negative
status) by its first poll, every iteration admits the head command and
reaps it in the same pass, so the pool is empty again at each iteration
boundary and callbacks fire in submission order. -/
theorem runLoop_fifo (env : Nat → Nat × Int)
    (henv : ∀ i, (env i).1 = 0 ∧ 0 ≤ (env i).2) :
    ∀ (fuel : Nat) (cmds : List Cmd) (k t : Nat) (sp : List (Nat × Cmd))
      (cbL rmL : List Nat) (pr fc hw : Nat) (pt : Option Nat) (pb : Bool),
      (∀ c ∈ cmds, c.isEmpty = false) →
      ∀ s', runLoop env fuel
          { workers := 1, debug := false, commands := cmds, pool := [],
            nextPid := k, time := t, cbSet := true, pbOn := pb,
            progressTotal := pt, spawnLog := sp, callbackLog := cbL,
            removeLog := rmL, progress := pr, finalizeCount := fc,
            highWater := hw } = some (.ok s') →
        s'.callbackLog = cbL ++ List.range' k cmds.length := by
  intro fuel
  induction fuel with
  | zero =>
    intro cmds k t sp cbL rmL pr fc hw pt pb htr s' h
    rw [runLoop] at h
    simp at h
  | succ n ih =>
    intro cmds k t sp cbL rmL pr fc hw pt pb htr s' h
    cases cmds with
    | nil =>
      rw [runLoop] at h
      rw [step_idle env _ rfl rfl rfl] at h
      exact ih [] k (t + 1) sp cbL rmL pr fc hw pt pb (by simp) s' h
    | cons c rest =>
      have hce : c.isEmpty = false := htr c (List.mem_cons_self c rest)
      have h1 : (env k).1 = 0 := (henv k).1
      have h2 : decide ((0 : Int) ≤ (env k).2) = true :=
        decide_eq_true (henv k).2
      have hstep : step env
          { workers := 1, debug := false, commands := c :: rest,
            pool := [], nextPid := k, time := t, cbSet := true, pbOn := pb,
            progressTotal := pt, spawnLog := sp, callbackLog := cbL,
            removeLog := rmL, progress := pr, finalizeCount := fc,
            highWater := hw } =
          .ok ((rest.length != 0),
            { workers := 1, debug := false, commands := rest, pool := [],
              nextPid := k + 1, time := t + 1, cbSet := true, pbOn := pb,
              progressTotal := pt, spawnLog := sp ++ [(k, c)],
              callbackLog := cbL ++ [k], removeLog := rmL ++ [k],
              progress := pr + (if pb then 1 else 0), finalizeCount := fc,
              highWater := max hw 1 }) := by
        unfold step
        simp [next_command, hce, finish_iter, add_to_pool, create_process,
          reap_pass, pollGE0, Proc.poll, h1, h2, busy_wait]
      rw [runLoop, hstep] at h
      cases hb : (rest.length != 0) with
      | false =>
        have hrnil : rest = [] :=
          List.eq_nil_of_length_eq_zero (by simpa using hb)
        subst hrnil
        rw [hb] at h
        simp only [Option.some.injEq, Except.ok.injEq] at h
        subst h
        simp
      | true =>
        rw [hb] at h
        have htr' : ∀ c ∈ rest, c.isEmpty = false :=
          fun c hc => htr c (List.mem_cons_of_mem _ hc)
        have hcb := ih rest (k + 1) (t + 1) (sp ++ [(k, c)]) (cbL ++ [k])
          (rmL ++ [k]) (pr + (if pb then 1 else 0)) fc (max hw 1) pt pb
          htr' s' h
        rw [hcb, List.length_cons, List.range'_succ k rest.length 1]
        simp

/-- C5 (amended): with `worker_count = 1`, callbacks fire in strict
submission (FIFO) order *provided every process terminates by its first
poll with a non-negative status* — as in the spec's
`["sleep 0", "sleep 0", "sleep 0"]` example, where the head command is
admitted and reaped within the same iteration, so the pool is empty at
each iteration boundary.  The original justification — that at most one
command is ever in flight — is false: the `<=` admission guard lets a
second command in while the first still runs, and a faster second
process is then reaped first (see `C5_counterexample`). -/
theorem C5_fifo_when_instant (env : Nat → Nat × Int)
    (henv : ∀ i, (env i).1 = 0 ∧ 0 ≤ (env i).2)
    (cmds : List Cmd) (htr : ∀ c ∈ cmds, c.isEmpty = false)
    (fuel : Nat) (pb : Bool) :
    match finalState (run env fuel 1 false cmds true pb) with
    | none => True
    | some s =>
        s.callbackLog = List.range cmds.length ∧
        s.spawnLog.map Prod.fst = List.range cmds.length := by
  simp only [run]
  cases hrl : runLoop env fuel (initState 1 false cmds true pb) with
  | none => simp [finalState]
  | some r =>
    cases r with
    | error e => simp [finalState]
    | ok s0 =>
      obtain ⟨-, hsp, -, -, -, -, -, -, -⟩ :=
        runLoop_final_facts env 1 false cmds true pb fuel htr s0 hrl
      have hcb := runLoop_fifo env henv fuel cmds 0 0 [] [] [] 0 0 0
        (if pb then some cmds.length else none) pb htr s0 hrl
      simp only [List.nil_append] at hcb
      cases hpb : s0.pbOn <;>
        simp [finalState, hpb, hcb, hsp, List.range_eq_range']

/-- Witness for C5 (amended): two instant commands with one worker
yield callbacks in submission order `[0, 1]`. -/
theorem C5_fifo_when_instant_witness :
    match finalState (run (fun _ => (0, 0)) 2 1 false ["a", "b"] true
        false) with
    | none => True
    | some s =>
        s.callbackLog = List.range (["a", "b"] : List Cmd).length ∧
        s.spawnLog.map Prod.fst = List.range (["a", "b"] : List Cmd).length :=
  C5_fifo_when_instant (fun _ => (0, 0)) (fun _ => ⟨rfl, Int.le_refl 0⟩)
    ["a", "b"] (by decide) 2 false

end Littleworkers
